import Mathlib

/-!
Verification of the `TokenVec` packed token run, the bit codec and the
lex/parse pipeline of the Whitespace front end (`src/ws/token/token_vec.rs`,
`src/ws/tests.rs`).

`TokenVec` is a `u64` word holding a 6-bit length field (`LEN_MASK = 0b11_1111`)
in the low bits and up to 29 two-bit token codes above it.  We model the word
as a `Nat` kept below `2 ^ 64`; Rust wrapping arithmetic is rendered with
explicit `% 2 ^ 64`, `x & 0b11_1111` as `x % 64`, `x & !LEN_MASK` as
`x - x % 64`, and release-mode shifts mask their amount by the bit width
(`% 64`), as in Rust.  Debug assertions are modelled by `Option`-returning
variants (`pushD`, `popD`, ...) that return `none` exactly when a
`debug_assert!` (or a debug-checked usize overflow) would fire.
-/

/-- Modelled from the spec: `Token` lives in `src/ws/token.rs`, which is not
part of the provided sources.  Spec §3: one of three symbolic values; the
conventional scheme names them `S`, `T`, `L` (as used by `token_vec.rs` and
`tests.rs`).  The code casts tokens with `tok as u64` into 2-bit fields and
reads them back with `Token::from_repr_unchecked`, so the discriminants are
`S = 0`, `T = 1`, `L = 2` (the binary-digit tokens `S`/`T` are 0/1 as
required by `append_bits`); the fourth 2-bit pattern is reserved. -/
inductive Token where
  | S
  | T
  | L
deriving DecidableEq, BEq, Repr

/-- Discriminant of a token (`tok as u64`). -/
def Token.code : Token → Nat
  | .S => 0
  | .T => 1
  | .L => 2

/-- Modelled from the spec: `Token::from_repr_unchecked` on a 2-bit value.
Values `≥ 3` are outside the contract (unchecked in the source); the model
returns `L` there, and no theorem depends on that choice. -/
def Token.ofCode : Nat → Token
  | 0 => .S
  | 1 => .T
  | 2 => .L
  | _ => .L

/-- Truncation to a `u64`, i.e. Rust wrapping semantics. -/
def u64 (n : Nat) : Nat := n % 2 ^ 64

/-- `TokenVec(u64)`: the packed token run, one machine word. -/
structure TokenVec where
  word : Nat
deriving DecidableEq, Repr

/-- `TokenVec::new`. -/
def TokenVec.new : TokenVec := ⟨0⟩

/-- `len`: `(self.0 & LEN_MASK) as usize` with `LEN_MASK = 0b11_1111`. -/
def TokenVec.len (v : TokenVec) : Nat := v.word % 64

/-- `shift_for(i) = i as u64 * 2 + LEN_BITS` (`LEN_BITS = 6`), wrapping. -/
def shiftFor (i : Nat) : Nat := u64 (i * 2 + 6)

/-- `set_len`: `self.0 = (self.0 & !LEN_MASK) | len as u64`.  The
`debug_assert!(len <= self.capacity())` lives in the checked layer. -/
def TokenVec.setLen (v : TokenVec) (n : Nat) : TokenVec :=
  ⟨(v.word - v.word % 64) ||| u64 n⟩

/-- `capacity() = 29`. -/
def TokenVec.capacity (_v : TokenVec) : Nat := 29

/-- `is_empty() = (len() == 0)`. -/
def TokenVec.isEmpty (v : TokenVec) : Bool := v.len == 0

/-- `get`: `Token::from_repr_unchecked(((self.0 >> shift_for(i)) & 0b11) as u32)`;
the shift amount is masked by the word width as in release Rust. -/
def TokenVec.get (v : TokenVec) (i : Nat) : Token :=
  Token.ofCode ((v.word >>> (shiftFor i % 64)) % 4)

/-- `set`: `self.0 = self.0 & !(0b11 << shift) | ((tok as u64) << shift)`,
clearing the two payload bits at `shift` and or-ing the new code in.
`x & !(0b11 << s)` keeps the low `s` bits and the bits from `s + 2` up. -/
def TokenVec.set (v : TokenVec) (i : Nat) (t : Token) : TokenVec :=
  ⟨(v.word % 2 ^ (shiftFor i % 64) +
      v.word / 2 ^ (shiftFor i % 64 + 2) * 2 ^ (shiftFor i % 64 + 2)) |||
    (t.code <<< (shiftFor i % 64))⟩

/-- `push`: `let len = self.len(); self.set_len(len + 1); self.set(len, tok)`. -/
def TokenVec.push (v : TokenVec) (t : Token) : TokenVec :=
  (v.setLen (v.len + 1)).set v.len t

/-- `pop`: `let len = self.len() - 1; let tok = self.get(len); self.set_len(len); tok`.
The usize subtraction wraps in release (`+ (2 ^ 64 - 1)` mod `2 ^ 64`). -/
def TokenVec.pop (v : TokenVec) : Token × TokenVec :=
  (v.get (u64 (v.len + (2 ^ 64 - 1))), v.setLen (u64 (v.len + (2 ^ 64 - 1))))

/-- `push_front`: `data = (self.0 & !LEN_MASK) << 2;`
`self.0 = data | (tok as u64) << LEN_BITS | ((self.0 & LEN_MASK) + 1)`. -/
def TokenVec.pushFront (v : TokenVec) (t : Token) : TokenVec :=
  ⟨u64 ((v.word - v.word % 64) <<< 2) ||| (t.code <<< 6) ||| (v.word % 64 + 1)⟩

/-- `pop_front`: `let tok = self.get(0); let len = self.len(); self.0 >>= 2;`
`self.set_len(len - 1); tok` (wrapping usize subtraction). -/
def TokenVec.popFront (v : TokenVec) : Token × TokenVec :=
  (v.get 0, TokenVec.setLen ⟨v.word >>> 2⟩ (u64 (v.len + (2 ^ 64 - 1))))

/-- `extend`: `data = self.0 & ((1 << shift_for(self.len())) - 1);`
`self.0 = data | ((self.0 & LEN_MASK) + n as u64)`.  `x & ((1 << s) - 1)` is
`x % 2 ^ s`; the `|` here genuinely overlaps the old length field, so it is
kept as a bitwise or. -/
def TokenVec.extend (v : TokenVec) (n : Nat) : TokenVec :=
  ⟨v.word % 2 ^ (shiftFor v.len % 64) ||| u64 (v.len + n)⟩

/-- `bits` inner loop: `bits |= (toks[i] as u64) << (i * 2)`. -/
def bitsGo : List Token → Nat → Nat → Nat
  | [], _, acc => acc
  | t :: ts, i, acc => bitsGo ts (i + 1) (u64 (acc ||| u64 (t.code <<< (i * 2 % 64))))

/-- `TokenVec::bits(toks)`: or together `tok_i << (i * 2)`. -/
def TokenVec.bits (toks : List Token) : Nat := bitsGo toks 0 0

/-- `append`: `let shift = shift_for(self.len()); self.extend(toks.len());`
`self.0 |= Self::bits(toks) << shift`. -/
def TokenVec.append (v : TokenVec) (toks : List Token) : TokenVec :=
  ⟨(v.extend toks.length).word ||| u64 (TokenVec.bits toks <<< (shiftFor v.len % 64))⟩

/-- `concat`: `let shift = shift_for(self.len()); self.extend(other.len());`
`self.0 |= (other.0 & !LEN_MASK) << (shift - LEN_BITS)`. -/
def TokenVec.concat (v other : TokenVec) : TokenVec :=
  ⟨(v.extend other.len).word |||
    u64 ((other.word - other.word % 64) <<< ((shiftFor v.len - 6) % 64))⟩

/-- The bit-to-token map used by `append_bits`: `if *bit { Token::T } else { Token::S }`. -/
def bitToken (b : Bool) : Token := if b then Token.T else Token.S

/-- `append_bits`: `for bit in bits { self.push(...) }`. -/
def TokenVec.appendBits (v : TokenVec) (bs : List Bool) : TokenVec :=
  bs.foldl (fun w b => w.push (bitToken b)) v

/-- `append_bits_front`: `for bit in bits { self.push_front(...) }`. -/
def TokenVec.appendBitsFront (v : TokenVec) (bs : List Bool) : TokenVec :=
  bs.foldl (fun w b => w.pushFront (bitToken b)) v

/-- `impl From<&[Token]> for TokenVec`: `TokenVec(bits(toks) << LEN_BITS | toks.len())`. -/
def TokenVec.fromList (toks : List Token) : TokenVec :=
  ⟨u64 (TokenVec.bits toks <<< 6) ||| toks.length⟩

/-- `impl PartialEq for TokenVec` (release semantics):
`(self.0 << shift_for(self.len())) == (other.0 << shift_for(other.len()))`,
shift amounts masked by the width. -/
def tokenVecEq (a b : TokenVec) : Bool :=
  u64 (a.word <<< (shiftFor a.len % 64)) == u64 (b.word <<< (shiftFor b.len % 64))

/-- `Iterator::next`: `if !self.is_empty() { Some(self.pop_front()) } else { None }`. -/
def TokenVec.next (v : TokenVec) : Option (Token × TokenVec) :=
  if v.isEmpty then none else some v.popFront

/-- `DoubleEndedIterator::next_back`: `if !self.is_empty() { Some(self.pop()) } else { None }`. -/
def TokenVec.nextBack (v : TokenVec) : Option (Token × TokenVec) :=
  if v.isEmpty then none else some v.pop

/-- `size_hint`: `(self.len(), Some(self.len()))`. -/
def TokenVec.sizeHint (v : TokenVec) : Nat × Option Nat := (v.len, some v.len)

/-- Forward iteration driver: repeatedly call `next`, collecting the yielded
tokens and returning the final iterator state. -/
def drainF : Nat → TokenVec → List Token × TokenVec
  | 0, v => ([], v)
  | fuel + 1, v =>
    match v.next with
    | none => ([], v)
    | some (t, v') =>
      let r := drainF fuel v'
      (t :: r.1, r.2)

/-- Reverse iteration driver: repeatedly call `next_back`. -/
def drainB : Nat → TokenVec → List Token × TokenVec
  | 0, v => ([], v)
  | fuel + 1, v =>
    match v.nextBack with
    | none => ([], v)
    | some (t, v') =>
      let r := drainB fuel v'
      (t :: r.1, r.2)

/-- `impl From<TokenVec> for Vec<Token>`: iterate to exhaustion, collecting. -/
def TokenVec.toList (v : TokenVec) : List Token := (drainF v.len v).1

/-! ### Debug-checked layer

Each `...D` operation returns `none` exactly when running the source operation
in a debug build would hit a `debug_assert!` or a checked usize overflow. -/

/-- `push` in a debug build: `set_len(len + 1)` asserts `len + 1 <= capacity`. -/
def TokenVec.pushD (v : TokenVec) (t : Token) : Option TokenVec :=
  if v.len + 1 ≤ 29 then some (v.push t) else none

/-- `push_front` in a debug build: `debug_assert!(self.len() < self.capacity())`. -/
def TokenVec.pushFrontD (v : TokenVec) (t : Token) : Option TokenVec :=
  if v.len < 29 then some (v.pushFront t) else none

/-- `pop` in a debug build: `self.len() - 1` traps on an empty run, and
`set_len(len - 1)` asserts `len - 1 <= capacity`. -/
def TokenVec.popD (v : TokenVec) : Option (Token × TokenVec) :=
  if 1 ≤ v.len ∧ v.len - 1 ≤ 29 then some v.pop else none

/-- `pop_front` in a debug build: `get(0)` asserts `0 < len`, and
`set_len(len - 1)` asserts `len - 1 <= capacity`. -/
def TokenVec.popFrontD (v : TokenVec) : Option (Token × TokenVec) :=
  if 1 ≤ v.len ∧ v.len - 1 ≤ 29 then some v.popFront else none

/-- `append` in a debug build: `extend` asserts
`n != 0 && self.len() + n <= self.capacity()`. -/
def TokenVec.appendD (v : TokenVec) (toks : List Token) : Option TokenVec :=
  if toks.length ≠ 0 ∧ v.len + toks.length ≤ 29 then some (v.append toks) else none

/-- `concat` in a debug build: `extend` asserts
`n != 0 && self.len() + n <= self.capacity()`. -/
def TokenVec.concatD (v other : TokenVec) : Option TokenVec :=
  if other.len ≠ 0 ∧ v.len + other.len ≤ 29 then some (v.concat other) else none

/-! ### Arithmetic toolkit -/

theorem u64_eq_of_lt {n : Nat} (h : n < 2 ^ 64) : u64 n = n := Nat.mod_eq_of_lt h

/-- Or-ing disjoint high and low parts is addition. -/
theorem or_eq_add {s b : Nat} (a : Nat) (h : b < 2 ^ s) :
    2 ^ s * a ||| b = 2 ^ s * a + b := (Nat.mul_add_lt_is_or h a).symm

/-- A common power factors out of a bitwise or. -/
theorem pow_mul_or (s x y : Nat) : 2 ^ s * x ||| 2 ^ s * y = 2 ^ s * (x ||| y) := by
  apply Nat.eq_of_testBit_eq
  intro j
  rw [Nat.testBit_or, Nat.testBit_mul_pow_two, Nat.testBit_mul_pow_two,
    Nat.testBit_mul_pow_two, Nat.testBit_or]
  by_cases h : j ≥ s <;> simp [h]

/-- Or-ing a 2-bit code at offset `s` into a word whose bits `s`, `s + 1`
are clear is addition. -/
theorem or_two_bits {s r c : Nat} (a : Nat) (hr : r < 2 ^ s) (hc : c < 4) :
    2 ^ (s + 2) * a + r ||| c * 2 ^ s = 2 ^ (s + 2) * a + c * 2 ^ s + r := by
  have hpow : (2 : Nat) ^ (s + 2) = 2 ^ s * 4 := by rw [pow_add]; norm_num
  have hr2 : r < 2 ^ (s + 2) := lt_of_lt_of_le hr (Nat.pow_le_pow_right (by norm_num) (by omega))
  have e1 : 2 ^ (s + 2) * a + r = 2 ^ (s + 2) * a ||| r := Nat.mul_add_lt_is_or hr2 a
  have e2 : (4 : Nat) * a ||| c = 4 * a + c := by
    have h4 : (4 : Nat) = 2 ^ 2 := by norm_num
    rw [h4]
    exact or_eq_add a (by omega)
  calc 2 ^ (s + 2) * a + r ||| c * 2 ^ s
      = (2 ^ (s + 2) * a ||| r) ||| c * 2 ^ s := by rw [← e1]
    _ = (2 ^ (s + 2) * a ||| c * 2 ^ s) ||| r := by
        rw [Nat.or_assoc, Nat.or_comm r (c * 2 ^ s), ← Nat.or_assoc]
    _ = (2 ^ s * (4 * a) ||| 2 ^ s * c) ||| r := by
        rw [show 2 ^ (s + 2) * a = 2 ^ s * (4 * a) from by rw [hpow]; ring,
          Nat.mul_comm c (2 ^ s)]
    _ = 2 ^ s * (4 * a ||| c) ||| r := by rw [pow_mul_or]
    _ = 2 ^ s * (4 * a + c) ||| r := by rw [e2]
    _ = 2 ^ s * (4 * a + c) + r := or_eq_add _ hr
    _ = 2 ^ (s + 2) * a + c * 2 ^ s + r := by rw [hpow]; ring

/-- Dividing away a low chunk: `(4 ^ k * A + B) / 4 ^ s = A / 4 ^ (s - k)`
when `B < 4 ^ k ≤ 4 ^ s`. -/
theorem add_low_div {B k : Nat} (A s : Nat) (hB : B < 4 ^ k) (hk : k ≤ s) :
    (4 ^ k * A + B) / 4 ^ s = A / 4 ^ (s - k) := by
  have hs : (4 : Nat) ^ s = 4 ^ k * 4 ^ (s - k) := by
    rw [← pow_add]; congr 1; omega
  rw [hs, ← Nat.div_div_eq_div_mul]
  congr 1
  rw [Nat.mul_add_div (by positivity), Nat.div_eq_of_lt hB]
  omega

/-- Digits below the width of a mod survive it:
`(x % 4 ^ K) / 4 ^ j % 4 = x / 4 ^ j % 4` for `j < K`. -/
theorem mod_pow_digit {j K : Nat} (x : Nat) (h : j < K) :
    x % 4 ^ K / 4 ^ j % 4 = x / 4 ^ j % 4 := by
  have hK : (4 : Nat) ^ K = 4 ^ j * 4 ^ (K - j) := by
    rw [← pow_add]; congr 1; omega
  rw [hK, Nat.mod_mul_right_div_self]
  exact Nat.mod_mod_of_dvd _ (dvd_pow_self 4 (by omega))

/-! ### Representation layer: a word is a length field plus a payload of
base-4 digits. -/

/-- The payload: the word above the 6-bit length field. -/
def TokenVec.payload (v : TokenVec) : Nat := v.word / 64

/-- Well-formedness of the model: the word fits in a `u64`. -/
def TokenVec.Wf (v : TokenVec) : Prop := v.word < 2 ^ 64

instance (v : TokenVec) : Decidable v.Wf :=
  inferInstanceAs (Decidable (v.word < 2 ^ 64))

theorem TokenVec.word_eq (v : TokenVec) : v.word = 64 * v.payload + v.len :=
  (Nat.div_add_mod v.word 64).symm

theorem TokenVec.len_lt (v : TokenVec) : v.len < 64 := Nat.mod_lt _ (by norm_num)

theorem TokenVec.payload_lt {v : TokenVec} (h : v.Wf) : v.payload < 2 ^ 58 := by
  have h2 : v.word < 2 ^ 64 := h
  simp only [TokenVec.payload]
  omega

theorem mk_len {p n : Nat} (hn : n < 64) : (TokenVec.mk (64 * p + n)).len = n := by
  simp only [TokenVec.len]; omega

theorem mk_payload {p n : Nat} (hn : n < 64) : (TokenVec.mk (64 * p + n)).payload = p := by
  simp only [TokenVec.payload]; omega

theorem mk_wf {p n : Nat} (hp : p < 2 ^ 58) (hn : n < 64) :
    (TokenVec.mk (64 * p + n)).Wf := by
  simp only [TokenVec.Wf]; norm_num at hp ⊢; omega

theorem ofCode_code (t : Token) : Token.ofCode t.code = t := by
  cases t <;> rfl

theorem code_lt (t : Token) : t.code < 4 := by
  cases t <;> simp [Token.code]

/-- `set_len` keeps the payload and installs the new length. -/
theorem setLen_word (v : TokenVec) {n : Nat} (hn : n < 64) :
    (v.setLen n).word = 64 * v.payload + n := by
  simp only [TokenVec.setLen]
  have h1 : u64 n = n := u64_eq_of_lt (by norm_num at hn ⊢; omega)
  have h2 : v.word - v.word % 64 = 2 ^ 6 * v.payload := by
    simp only [TokenVec.payload]; omega
  rw [h1, h2, or_eq_add _ (by norm_num at hn ⊢; omega)]
  norm_num

/-- `get` reads base-4 digit `i` of the payload. -/
theorem get_eq (v : TokenVec) {i : Nat} (hi : i ≤ 28) :
    v.get i = Token.ofCode (v.payload / 4 ^ i % 4) := by
  simp only [TokenVec.get, shiftFor, TokenVec.payload]
  have h1 : u64 (i * 2 + 6) = i * 2 + 6 := u64_eq_of_lt (by norm_num; omega)
  have h2 : (i * 2 + 6) % 64 = i * 2 + 6 := Nat.mod_eq_of_lt (by omega)
  rw [h1, h2, Nat.shiftRight_eq_div_pow]
  congr 2
  have h3 : (2 : Nat) ^ (i * 2 + 6) = 64 * 4 ^ i := by
    rw [pow_add, Nat.mul_comm i 2, pow_mul]
    norm_num [Nat.mul_comm]
  rw [h3, ← Nat.div_div_eq_div_mul]

/-- `set` replaces base-4 digit `i` of the payload, leaving the length. -/
theorem set_word (v : TokenVec) {i : Nat} (t : Token) (hi : i ≤ 28) :
    (v.set i t).word =
      64 * (4 ^ (i + 1) * (v.payload / 4 ^ (i + 1)) + t.code * 4 ^ i + v.payload % 4 ^ i) +
        v.len := by
  simp only [TokenVec.set]
  have hs1 : shiftFor i = i * 2 + 6 := u64_eq_of_lt (by omega)
  have hs2 : (i * 2 + 6) % 64 = i * 2 + 6 := Nat.mod_eq_of_lt (by omega)
  rw [hs1, hs2]
  have hpow : (2 : Nat) ^ (i * 2 + 6) = 64 * 4 ^ i := by
    rw [pow_add, Nat.mul_comm i 2, pow_mul]
    norm_num [Nat.mul_comm]
  have hpow2 : (2 : Nat) ^ (i * 2 + 6 + 2) = 64 * 4 ^ (i + 1) := by
    have he : i * 2 + 6 + 2 = (i + 1) * 2 + 6 := by ring
    rw [he, pow_add, Nat.mul_comm (i + 1) 2, pow_mul]
    norm_num [Nat.mul_comm]
  have hshl : t.code <<< (i * 2 + 6) = t.code * 2 ^ (i * 2 + 6) := by
    rw [Nat.shiftLeft_eq]
  rw [hshl]
  -- Bring the un-orred part into the `2 ^ (s + 2) * a + r` shape.
  have hrlt : v.word % 2 ^ (i * 2 + 6) < 2 ^ (i * 2 + 6) := Nat.mod_lt _ (by positivity)
  have hform :
      v.word % 2 ^ (i * 2 + 6) +
          v.word / 2 ^ (i * 2 + 6 + 2) * 2 ^ (i * 2 + 6 + 2) =
        2 ^ (i * 2 + 6 + 2) * (v.word / 2 ^ (i * 2 + 6 + 2)) +
          v.word % 2 ^ (i * 2 + 6) := by ring
  rw [hform, or_two_bits _ hrlt (code_lt t)]
  -- Convert word-level pieces to payload-level pieces.
  have e1 : v.word / 2 ^ (i * 2 + 6 + 2) = v.payload / 4 ^ (i + 1) := by
    rw [hpow2, ← Nat.div_div_eq_div_mul]; rfl
  have hfourpos : 0 < (4 : Nat) ^ i := pow_pos (by norm_num) i
  have e2 : v.word % 2 ^ (i * 2 + 6) = 64 * (v.payload % 4 ^ i) + v.len := by
    conv_lhs => rw [v.word_eq]
    have hlen64 : v.len < 64 * 4 ^ i :=
      lt_of_lt_of_le v.len_lt (Nat.le_mul_of_pos_right 64 hfourpos)
    rw [hpow, Nat.add_mod, Nat.mul_mod_mul_left, Nat.mod_eq_of_lt hlen64]
    have hfit : 64 * (v.payload % 4 ^ i) + v.len < 64 * 4 ^ i := by
      have h1 := Nat.mod_lt v.payload hfourpos
      have h2 := v.len_lt
      omega
    exact Nat.mod_eq_of_lt hfit
  rw [e1, e2, hpow2, hpow]
  ring

/-! ### Base-4 digit surgery on payloads -/

/-- Payload with base-4 digit `i` replaced by `c` (the payload produced by
`set`). -/
def setDigit (p i c : Nat) : Nat :=
  4 ^ (i + 1) * (p / 4 ^ (i + 1)) + c * 4 ^ i + p % 4 ^ i

theorem setDigit_digit_lt {p i j c : Nat} (h : j < i) :
    setDigit p i c / 4 ^ j % 4 = p / 4 ^ j % 4 := by
  have hsplit : setDigit p i c = 4 ^ i * (4 * (p / 4 ^ (i + 1)) + c) + p % 4 ^ i := by
    simp only [setDigit, pow_succ]; ring
  have hstep : (4 : Nat) ^ i * (4 * (p / 4 ^ (i + 1)) + c) =
      4 ^ j * (4 ^ (i - j) * (4 * (p / 4 ^ (i + 1)) + c)) := by
    rw [← Nat.mul_assoc, ← pow_add]
    congr 2
    omega
  have hdiv : setDigit p i c / 4 ^ j =
      4 ^ (i - j) * (4 * (p / 4 ^ (i + 1)) + c) + p % 4 ^ i / 4 ^ j := by
    rw [hsplit, hstep, Nat.mul_add_div (by positivity)]
  have hfac : 4 ^ (i - j) * (4 * (p / 4 ^ (i + 1)) + c) =
      4 * (4 ^ (i - j - 1) * (4 * (p / 4 ^ (i + 1)) + c)) := by
    rw [← Nat.mul_assoc]
    congr 1
    rw [show (4 : Nat) * 4 ^ (i - j - 1) = 4 ^ (i - j - 1) * 4 from Nat.mul_comm _ _,
      ← pow_succ]
    congr 1
    omega
  have hlow := mod_pow_digit p h
  rw [hdiv, hfac]
  omega

theorem setDigit_digit_eq {p i c : Nat} (hc : c < 4) :
    setDigit p i c / 4 ^ i % 4 = c := by
  have hsplit : setDigit p i c = 4 ^ i * (4 * (p / 4 ^ (i + 1)) + c) + p % 4 ^ i := by
    simp only [setDigit, pow_succ]; ring
  rw [hsplit, Nat.mul_add_div (by positivity),
    Nat.div_eq_of_lt (Nat.mod_lt _ (by positivity))]
  omega

theorem setDigit_digit_gt {p i j c : Nat} (hc : c < 4) (h : i < j) :
    setDigit p i c / 4 ^ j % 4 = p / 4 ^ j % 4 := by
  have h1 : p % 4 ^ i < 4 ^ i := Nat.mod_lt _ (by positivity)
  have h2 : (4 : Nat) ^ (i + 1) = 4 * 4 ^ i := by rw [pow_succ]; ring
  have h3 : c * 4 ^ i ≤ 3 * 4 ^ i := Nat.mul_le_mul_right _ (by omega)
  have hR : c * 4 ^ i + p % 4 ^ i < 4 ^ (i + 1) := by omega
  have hsplit : setDigit p i c =
      4 ^ (i + 1) * (p / 4 ^ (i + 1)) + (c * 4 ^ i + p % 4 ^ i) := by
    simp only [setDigit]; ring
  rw [hsplit, add_low_div _ j hR (by omega)]
  have hdd : p / 4 ^ (i + 1) / 4 ^ (j - (i + 1)) = p / 4 ^ j := by
    rw [Nat.div_div_eq_div_mul, ← pow_add]
    congr 2
    omega
  rw [hdd]

theorem setDigit_lt {p i c : Nat} (hp : p < 2 ^ 58) (hc : c < 4) (hi : i ≤ 28) :
    setDigit p i c < 2 ^ 58 := by
  have h1 : p % 4 ^ i < 4 ^ i := Nat.mod_lt _ (by positivity)
  have h2 : (4 : Nat) ^ (i + 1) = 4 * 4 ^ i := by rw [pow_succ]; ring
  have h3 : c * 4 ^ i ≤ 3 * 4 ^ i := Nat.mul_le_mul_right _ (by omega)
  have hR : c * 4 ^ i + p % 4 ^ i < 4 ^ (i + 1) := by omega
  have hA : p / 4 ^ (i + 1) < 4 ^ (28 - i) := by
    apply Nat.div_lt_of_lt_mul
    calc p < 2 ^ 58 := hp
      _ = 4 ^ 29 := by norm_num
      _ = 4 ^ (i + 1) * 4 ^ (28 - i) := by rw [← pow_add]; congr 1; omega
  have hkey : setDigit p i c < 4 ^ (i + 1) * (p / 4 ^ (i + 1) + 1) := by
    have hexp : 4 ^ (i + 1) * (p / 4 ^ (i + 1) + 1) =
        4 ^ (i + 1) * (p / 4 ^ (i + 1)) + 4 ^ (i + 1) := by ring
    simp only [setDigit]
    omega
  calc setDigit p i c < 4 ^ (i + 1) * (p / 4 ^ (i + 1) + 1) := hkey
    _ ≤ 4 ^ (i + 1) * 4 ^ (28 - i) := Nat.mul_le_mul_left _ hA
    _ = 2 ^ 58 := by rw [← pow_add, show i + 1 + (28 - i) = 29 from by omega]; norm_num

/-! ### The structural payload of a token list -/

/-- Base-4 encoding of a token list, least-significant digit first.  This is
the payload that `TokenVec::bits` computes. -/
def encodeToks : List Token → Nat
  | [] => 0
  | t :: ts => t.code + 4 * encodeToks ts

theorem encodeToks_lt : ∀ l : List Token, encodeToks l < 4 ^ l.length
  | [] => by simp [encodeToks]
  | t :: ts => by
    have ih := encodeToks_lt ts
    have hc := code_lt t
    simp only [encodeToks, List.length_cons, pow_succ]
    omega

theorem encodeToks_append_one (l : List Token) (t : Token) :
    encodeToks (l ++ [t]) = encodeToks l + t.code * 4 ^ l.length := by
  induction l with
  | nil => simp [encodeToks]
  | cons x xs ih =>
    simp only [List.cons_append, encodeToks, List.length_cons, List.append_eq]
    rw [ih, pow_succ]
    ring

theorem encodeToks_digit :
    ∀ (l : List Token) (i : Nat) (h : i < l.length),
      encodeToks l / 4 ^ i % 4 = (l.get ⟨i, h⟩).code
  | t :: ts, 0, _ => by
    have hc := code_lt t
    simp only [encodeToks, pow_zero, Nat.div_one, List.get]
    omega
  | t :: ts, i + 1, h => by
    have hc := code_lt t
    have ih := encodeToks_digit ts i (by simpa using Nat.lt_of_succ_lt_succ h)
    simp only [encodeToks, List.get, pow_succ]
    rw [show t.code + 4 * encodeToks ts = 4 * encodeToks ts + t.code from by ring,
      Nat.mul_comm (4 ^ i) 4, ← Nat.div_div_eq_div_mul,
      Nat.mul_add_div (by norm_num), Nat.div_eq_of_lt hc]
    simpa using ih

theorem bitsGo_eq :
    ∀ (l : List Token) (i acc : Nat), acc < 4 ^ i → i + l.length ≤ 32 →
      bitsGo l i acc = acc + 4 ^ i * encodeToks l
  | [], i, acc, _, _ => by simp [bitsGo, encodeToks]
  | t :: ts, i, acc, hacc, hlen => by
    have hc := code_lt t
    have hi : i ≤ 31 := by simp at hlen; omega
    have h4 : (4 : Nat) ^ i = 2 ^ (i * 2) := by
      rw [Nat.mul_comm i 2, pow_mul]; norm_num
    have hshift : i * 2 % 64 = i * 2 := Nat.mod_eq_of_lt (by omega)
    have hval : t.code <<< (i * 2) = t.code * 4 ^ i := by
      rw [Nat.shiftLeft_eq, h4]
    have hcodele : t.code * 4 ^ i ≤ 3 * 4 ^ i := Nat.mul_le_mul_right _ (by omega)
    have hps : (4 : Nat) ^ (i + 1) = 4 * 4 ^ i := by rw [pow_succ]; ring
    have hbound : t.code * 4 ^ i + acc < 4 ^ (i + 1) := by omega
    have hpowle : (4 : Nat) ^ (i + 1) ≤ 2 ^ 64 := by
      calc (4 : Nat) ^ (i + 1) ≤ 4 ^ 32 := Nat.pow_le_pow_right (by norm_num) (by omega)
        _ = 2 ^ 64 := by norm_num
    have hu1 : u64 (t.code <<< (i * 2)) = t.code * 4 ^ i := by
      rw [hval]
      exact u64_eq_of_lt (lt_of_lt_of_le (by omega) hpowle)
    have hor : acc ||| t.code * 4 ^ i = t.code * 4 ^ i + acc := by
      rw [Nat.or_comm, show t.code * 4 ^ i = 2 ^ (i * 2) * t.code from by rw [← h4]; ring,
        or_eq_add _ (by rw [← h4]; exact hacc)]
    have hu2 : u64 (t.code * 4 ^ i + acc) = t.code * 4 ^ i + acc :=
      u64_eq_of_lt (lt_of_lt_of_le hbound hpowle)
    have step : bitsGo (t :: ts) i acc = bitsGo ts (i + 1) (t.code * 4 ^ i + acc) := by
      simp only [bitsGo, hshift, hu1, hor, hu2]
    rw [step, bitsGo_eq ts (i + 1) _ hbound (by simp at hlen ⊢; omega)]
    simp only [encodeToks, pow_succ]
    ring

theorem bits_eq (l : List Token) (h : l.length ≤ 32) :
    TokenVec.bits l = encodeToks l := by
  have := bitsGo_eq l 0 0 (by norm_num) (by omega)
  simpa [TokenVec.bits] using this

/-- `From<&[Token]>` builds the canonical (garbage-free) word. -/
theorem fromList_word (l : List Token) (h : l.length ≤ 29) :
    (TokenVec.fromList l).word = 64 * encodeToks l + l.length := by
  simp only [TokenVec.fromList]
  rw [bits_eq l (by omega), Nat.shiftLeft_eq]
  have hE := encodeToks_lt l
  have hEbound : encodeToks l < 4 ^ 29 := by
    calc encodeToks l < 4 ^ l.length := hE
      _ ≤ 4 ^ 29 := Nat.pow_le_pow_right (by norm_num) h
  have hu : u64 (encodeToks l * 2 ^ 6) = encodeToks l * 2 ^ 6 := by
    apply u64_eq_of_lt
    have : (4 : Nat) ^ 29 * 2 ^ 6 = 2 ^ 64 := by norm_num
    calc encodeToks l * 2 ^ 6 < 4 ^ 29 * 2 ^ 6 :=
          (Nat.mul_lt_mul_right (by norm_num)).mpr hEbound
      _ = 2 ^ 64 := this
  rw [hu, show encodeToks l * 2 ^ 6 = 2 ^ 6 * encodeToks l from by ring,
    or_eq_add _ (show l.length < 2 ^ 6 from by omega)]
  ring

theorem fromList_len (l : List Token) (h : l.length ≤ 29) :
    (TokenVec.fromList l).len = l.length := by
  have := fromList_word l h
  have h2 : (TokenVec.fromList l) = TokenVec.mk (64 * encodeToks l + l.length) := by
    cases hv : TokenVec.fromList l
    simp_all
  rw [h2, mk_len (by omega)]

theorem fromList_payload (l : List Token) (h : l.length ≤ 29) :
    (TokenVec.fromList l).payload = encodeToks l := by
  have := fromList_word l h
  have h2 : (TokenVec.fromList l) = TokenVec.mk (64 * encodeToks l + l.length) := by
    cases hv : TokenVec.fromList l
    simp_all
  rw [h2, mk_payload (by omega)]

theorem fromList_wf (l : List Token) (h : l.length ≤ 29) :
    (TokenVec.fromList l).Wf := by
  have hw := fromList_word l h
  have hE : encodeToks l < 4 ^ 29 := by
    calc encodeToks l < 4 ^ l.length := encodeToks_lt l
      _ ≤ 4 ^ 29 := Nat.pow_le_pow_right (by norm_num) h
  simp only [TokenVec.Wf, hw]
  norm_num at hE ⊢
  omega

/-! ### Per-operation characterizations -/

theorem push_word (v : TokenVec) (t : Token) (h : v.len ≤ 28) :
    (v.push t).word = 64 * setDigit v.payload v.len t.code + (v.len + 1) := by
  simp only [TokenVec.push]
  have h1 : (v.setLen (v.len + 1)).word = 64 * v.payload + (v.len + 1) :=
    setLen_word v (by omega)
  have hmk : v.setLen (v.len + 1) = TokenVec.mk (64 * v.payload + (v.len + 1)) := by
    cases hv : v.setLen (v.len + 1)
    simp_all
  rw [hmk, set_word _ t h, mk_payload (by omega), mk_len (by omega)]
  simp only [setDigit]

theorem push_eq (v : TokenVec) (t : Token) (h : v.len ≤ 28) :
    v.push t = TokenVec.mk (64 * setDigit v.payload v.len t.code + (v.len + 1)) := by
  cases hv : v.push t
  have := push_word v t h
  simp_all

theorem len_push (v : TokenVec) (t : Token) (h : v.len ≤ 28) :
    (v.push t).len = v.len + 1 := by
  rw [push_eq v t h, mk_len (by omega)]

theorem payload_push (v : TokenVec) (t : Token) (h : v.len ≤ 28) :
    (v.push t).payload = setDigit v.payload v.len t.code := by
  rw [push_eq v t h, mk_payload (by omega)]

theorem wf_push {v : TokenVec} (t : Token) (hw : v.Wf) (h : v.len ≤ 28) :
    (v.push t).Wf := by
  rw [push_eq v t h]
  exact mk_wf (setDigit_lt (v.payload_lt hw) (code_lt t) (by omega)) (by omega)

theorem get_push_lt (v : TokenVec) (t : Token) {j : Nat} (h : v.len ≤ 28)
    (hj : j < v.len) : (v.push t).get j = v.get j := by
  rw [get_eq _ (by omega), get_eq _ (by omega), payload_push v t h,
    setDigit_digit_lt hj]

theorem get_push_self (v : TokenVec) (t : Token) (h : v.len ≤ 28) :
    (v.push t).get v.len = t := by
  rw [get_eq _ (by omega), payload_push v t h, setDigit_digit_eq (code_lt t),
    ofCode_code]

theorem four_mul_mod (p c : Nat) (hc : c < 4) :
    (4 * p + c) % 2 ^ 58 = 4 * (p % 2 ^ 56) + c := by
  rw [show (2 : Nat) ^ 58 = 4 * 2 ^ 56 from by norm_num, Nat.add_mod,
    Nat.mul_mod_mul_left]
  have h1 : p % 2 ^ 56 < 2 ^ 56 := Nat.mod_lt _ (by norm_num)
  have h2 : c % (4 * 2 ^ 56) = c := Nat.mod_eq_of_lt (by omega)
  rw [h2]
  exact Nat.mod_eq_of_lt (by omega)

theorem digit_zero_mod58 (p c : Nat) (hc : c < 4) :
    (4 * p + c) % 2 ^ 58 % 4 = c := by
  rw [four_mul_mod p c hc]
  have h1 : p % 2 ^ 56 < 2 ^ 56 := Nat.mod_lt _ (by norm_num)
  omega

theorem digit_succ_mod58 (p c j : Nat) (hc : c < 4) (hj : j ≤ 27) :
    (4 * p + c) % 2 ^ 58 / 4 ^ (j + 1) % 4 = p / 4 ^ j % 4 := by
  rw [show (2 : Nat) ^ 58 = 4 ^ 29 from by norm_num,
    mod_pow_digit _ (show j + 1 < 29 from by omega)]
  have hd : (4 * p + c) / 4 ^ (j + 1) = p / 4 ^ j := by
    rw [show (4 : Nat) ^ (j + 1) = 4 * 4 ^ j from by rw [pow_succ]; ring,
      ← Nat.div_div_eq_div_mul]
    congr 1
    omega
  rw [hd]

theorem pushFront_word (v : TokenVec) (t : Token) (h : v.len ≤ 28) :
    (v.pushFront t).word = 64 * ((4 * v.payload + t.code) % 2 ^ 58) + (v.len + 1) := by
  simp only [TokenVec.pushFront]
  have hc := code_lt t
  have hdata : v.word - v.word % 64 = 64 * v.payload := by
    simp only [TokenVec.payload]; omega
  have hshl : (64 * v.payload) <<< 2 = 64 * (4 * v.payload) := by
    rw [Nat.shiftLeft_eq]; ring
  have hu1 : u64 (64 * (4 * v.payload)) = 64 * (4 * v.payload % 2 ^ 58) := by
    simp only [u64]
    rw [show (2 : Nat) ^ 64 = 64 * 2 ^ 58 from by norm_num, Nat.mul_mod_mul_left]
  have hmod4 : 4 * v.payload % 2 ^ 58 = 4 * (v.payload % 2 ^ 56) := by
    rw [show (2 : Nat) ^ 58 = 4 * 2 ^ 56 from by norm_num, Nat.mul_mod_mul_left]
  have hshl6 : t.code <<< 6 = 64 * t.code := by
    rw [Nat.shiftLeft_eq]; ring
  have hor1 : 64 * (4 * (v.payload % 2 ^ 56)) ||| 64 * t.code =
      64 * (4 * (v.payload % 2 ^ 56)) + 64 * t.code := by
    rw [show (64 : Nat) * (4 * (v.payload % 2 ^ 56)) = 2 ^ 8 * (v.payload % 2 ^ 56) from
        by ring]
    exact or_eq_add _ (by omega)
  have hor2 : 64 * (4 * (v.payload % 2 ^ 56)) + 64 * t.code ||| (v.word % 64 + 1) =
      64 * (4 * (v.payload % 2 ^ 56)) + 64 * t.code + (v.word % 64 + 1) := by
    rw [show (64 : Nat) * (4 * (v.payload % 2 ^ 56)) + 64 * t.code =
        2 ^ 6 * (4 * (v.payload % 2 ^ 56) + t.code) from by ring]
    have hlen : v.word % 64 + 1 < 2 ^ 6 := by
      have h2 := h
      simp only [TokenVec.len] at h2
      norm_num
      omega
    exact or_eq_add _ hlen
  rw [hdata, hshl, hu1, hmod4, hshl6, hor1, hor2]
  rw [four_mul_mod v.payload t.code hc]
  simp only [TokenVec.len]
  ring

theorem pushFront_eq (v : TokenVec) (t : Token) (h : v.len ≤ 28) :
    v.pushFront t =
      TokenVec.mk (64 * ((4 * v.payload + t.code) % 2 ^ 58) + (v.len + 1)) := by
  cases hv : v.pushFront t
  have := pushFront_word v t h
  simp_all

theorem len_pushFront (v : TokenVec) (t : Token) (h : v.len ≤ 28) :
    (v.pushFront t).len = v.len + 1 := by
  rw [pushFront_eq v t h, mk_len (by omega)]

theorem payload_pushFront (v : TokenVec) (t : Token) (h : v.len ≤ 28) :
    (v.pushFront t).payload = (4 * v.payload + t.code) % 2 ^ 58 := by
  rw [pushFront_eq v t h, mk_payload (by omega)]

theorem wf_pushFront (v : TokenVec) (t : Token) (h : v.len ≤ 28) :
    (v.pushFront t).Wf := by
  rw [pushFront_eq v t h]
  exact mk_wf (Nat.mod_lt _ (by norm_num)) (by omega)

theorem get_pushFront_zero (v : TokenVec) (t : Token) (h : v.len ≤ 28) :
    (v.pushFront t).get 0 = t := by
  have hc := code_lt t
  rw [get_eq _ (by omega), payload_pushFront v t h]
  simp only [pow_zero, Nat.div_one]
  rw [digit_zero_mod58 v.payload t.code hc, ofCode_code]

theorem get_pushFront_succ (v : TokenVec) (t : Token) {j : Nat} (h : v.len ≤ 28)
    (hj : j ≤ 27) : (v.pushFront t).get (j + 1) = v.get j := by
  have hc := code_lt t
  rw [get_eq _ (by omega), get_eq _ (by omega), payload_pushFront v t h,
    digit_succ_mod58 v.payload t.code j hc hj]

theorem wrap_sub_one (n : Nat) (h1 : 1 ≤ n) (h2 : n < 64) :
    u64 (n + (2 ^ 64 - 1)) = n - 1 := by
  simp only [u64]
  omega

theorem popFront_fst (v : TokenVec) : (v.popFront).1 = v.get 0 := rfl

theorem popFront_word (v : TokenVec) (h : 1 ≤ v.len) :
    (v.popFront).2.word = 64 * (v.payload / 4) + (v.len - 1) := by
  simp only [TokenVec.popFront]
  rw [wrap_sub_one v.len h v.len_lt]
  have hp : (TokenVec.mk (v.word >>> 2)).payload = v.payload / 4 := by
    simp only [TokenVec.payload, Nat.shiftRight_eq_div_pow]
    norm_num
    omega
  rw [setLen_word _ (by have := v.len_lt; omega), hp]

theorem popFront_eq (v : TokenVec) (h : 1 ≤ v.len) :
    (v.popFront).2 = TokenVec.mk (64 * (v.payload / 4) + (v.len - 1)) := by
  cases hv : (v.popFront).2
  have := popFront_word v h
  simp_all

theorem len_popFront (v : TokenVec) (h : 1 ≤ v.len) :
    (v.popFront).2.len = v.len - 1 := by
  rw [popFront_eq v h, mk_len (by have := v.len_lt; omega)]

theorem payload_popFront (v : TokenVec) (h : 1 ≤ v.len) :
    (v.popFront).2.payload = v.payload / 4 := by
  rw [popFront_eq v h, mk_payload (by have := v.len_lt; omega)]

theorem wf_popFront {v : TokenVec} (hw : v.Wf) (h : 1 ≤ v.len) :
    (v.popFront).2.Wf := by
  rw [popFront_eq v h]
  have hp := v.payload_lt hw
  exact mk_wf (by omega) (by have := v.len_lt; omega)

theorem get_popFront (v : TokenVec) {j : Nat} (h : 1 ≤ v.len) (hj : j ≤ 27) :
    (v.popFront).2.get j = v.get (j + 1) := by
  rw [get_eq _ (by omega), get_eq _ (by omega), payload_popFront v h]
  congr 1
  rw [Nat.div_div_eq_div_mul, show (4 : Nat) * 4 ^ j = 4 ^ (j + 1) from by
    rw [pow_succ]; ring]

theorem get_zero_payload (v : TokenVec) : v.get 0 = Token.ofCode (v.payload % 4) := by
  rw [get_eq _ (by omega)]
  simp [pow_zero]

theorem pop_fst (v : TokenVec) (h : 1 ≤ v.len) : (v.pop).1 = v.get (v.len - 1) := by
  simp only [TokenVec.pop]
  rw [wrap_sub_one v.len h v.len_lt]

theorem pop_word (v : TokenVec) (h : 1 ≤ v.len) :
    (v.pop).2.word = 64 * v.payload + (v.len - 1) := by
  simp only [TokenVec.pop]
  rw [wrap_sub_one v.len h v.len_lt, setLen_word _ (by have := v.len_lt; omega)]

theorem pop_snd_eq (v : TokenVec) (h : 1 ≤ v.len) :
    (v.pop).2 = TokenVec.mk (64 * v.payload + (v.len - 1)) := by
  cases hv : (v.pop).2
  have := pop_word v h
  simp_all

theorem len_pop (v : TokenVec) (h : 1 ≤ v.len) : (v.pop).2.len = v.len - 1 := by
  rw [pop_snd_eq v h, mk_len (by have := v.len_lt; omega)]

theorem payload_pop (v : TokenVec) (h : 1 ≤ v.len) : (v.pop).2.payload = v.payload := by
  rw [pop_snd_eq v h, mk_payload (by have := v.len_lt; omega)]

theorem wf_pop {v : TokenVec} (hw : v.Wf) (h : 1 ≤ v.len) : (v.pop).2.Wf := by
  rw [pop_snd_eq v h]
  exact mk_wf (v.payload_lt hw) (by have := v.len_lt; omega)

theorem get_pop (v : TokenVec) {j : Nat} (h : 1 ≤ v.len) (hj : j ≤ 28) :
    (v.pop).2.get j = v.get j := by
  rw [get_eq _ (by omega), get_eq _ (by omega), payload_pop v h]

/-! ### Iteration -/

theorem next_of_empty (v : TokenVec) (h : v.len = 0) : v.next = none := by
  simp [TokenVec.next, TokenVec.isEmpty, h]

theorem nextBack_of_empty (v : TokenVec) (h : v.len = 0) : v.nextBack = none := by
  simp [TokenVec.nextBack, TokenVec.isEmpty, h]

theorem next_of_nonempty (v : TokenVec) (h : 1 ≤ v.len) : v.next = some v.popFront := by
  simp [TokenVec.next, TokenVec.isEmpty]
  omega

theorem nextBack_of_nonempty (v : TokenVec) (h : 1 ≤ v.len) :
    v.nextBack = some v.pop := by
  simp [TokenVec.nextBack, TokenVec.isEmpty]
  omega

theorem drainF_spec :
    ∀ (k : Nat) (v : TokenVec), v.Wf → v.len = k → k ≤ 29 →
      (drainF k v).1 = (List.range k).map v.get ∧
        (drainF k v).2.len = 0 ∧ (drainF k v).2.Wf
  | 0, v, hw, hl, _ => by
    simp [drainF, List.range_zero, hl, hw]
  | k + 1, v, hw, hl, hk => by
    have hone : 1 ≤ v.len := by omega
    have hv' : (v.popFront).2.Wf := wf_popFront hw hone
    have hl' : (v.popFront).2.len = k := by rw [len_popFront v hone]; omega
    have ih := drainF_spec k (v.popFront).2 hv' hl' (by omega)
    have hstep : drainF (k + 1) v =
        ((v.popFront).1 :: (drainF k (v.popFront).2).1, (drainF k (v.popFront).2).2) := by
      simp only [drainF, next_of_nonempty v hone]
    rw [hstep]
    refine ⟨?_, ih.2.1, ih.2.2⟩
    simp only [popFront_fst]
    rw [ih.1, List.range_succ_eq_map, List.map_cons, List.map_map]
    congr 1
    apply List.map_congr_left
    intro i hi
    have hik : i < k := List.mem_range.mp hi
    simp only [Function.comp_apply, Nat.succ_eq_add_one]
    exact get_popFront v hone (by omega)

theorem drainB_spec :
    ∀ (k : Nat) (v : TokenVec), v.Wf → v.len = k → k ≤ 29 →
      (drainB k v).1 = ((List.range k).map v.get).reverse ∧
        (drainB k v).2.len = 0 ∧ (drainB k v).2.Wf
  | 0, v, hw, hl, _ => by
    simp [drainB, List.range_zero, hl, hw]
  | k + 1, v, hw, hl, hk => by
    have hone : 1 ≤ v.len := by omega
    have hv' : (v.pop).2.Wf := wf_pop hw hone
    have hl' : (v.pop).2.len = k := by rw [len_pop v hone]; omega
    have ih := drainB_spec k (v.pop).2 hv' hl' (by omega)
    have hstep : drainB (k + 1) v =
        ((v.pop).1 :: (drainB k (v.pop).2).1, (drainB k (v.pop).2).2) := by
      simp only [drainB, nextBack_of_nonempty v hone]
    rw [hstep]
    refine ⟨?_, ih.2.1, ih.2.2⟩
    rw [pop_fst v hone, ih.1, List.range_succ, List.map_append, List.reverse_append]
    simp only [List.map_cons, List.map_nil, List.reverse_cons, List.reverse_nil,
      List.nil_append, List.singleton_append]
    have h1 : v.get (v.len - 1) = v.get k := by rw [hl]; simp
    have h2 : (List.map (v.pop).2.get (List.range k)).reverse =
        (List.map v.get (List.range k)).reverse := by
      congr 1
      apply List.map_congr_left
      intro i hi
      have hik : i < k := List.mem_range.mp hi
      exact get_pop v hone (by omega)
    rw [h1, h2]

theorem toList_eq (v : TokenVec) (hw : v.Wf) (hk : v.len ≤ 29) :
    v.toList = (List.range v.len).map v.get := by
  exact (drainF_spec v.len v hw rfl hk).1

theorem toList_push (v : TokenVec) (t : Token) (hw : v.Wf) (h : v.len ≤ 28) :
    (v.push t).toList = v.toList ++ [t] := by
  rw [toList_eq _ (wf_push t hw h) (by rw [len_push v t h]; omega),
    toList_eq v hw (by omega), len_push v t h, List.range_succ, List.map_append]
  congr 1
  · apply List.map_congr_left
    intro i hi
    exact get_push_lt v t h (List.mem_range.mp hi)
  · simp [get_push_self v t h]

theorem toList_pushFront (v : TokenVec) (t : Token) (hw : v.Wf) (h : v.len ≤ 28) :
    (v.pushFront t).toList = t :: v.toList := by
  rw [toList_eq _ (wf_pushFront v t h) (by rw [len_pushFront v t h]; omega),
    toList_eq v hw (by omega), len_pushFront v t h, List.range_succ_eq_map,
    List.map_cons, List.map_map]
  congr 1
  · exact get_pushFront_zero v t h
  · apply List.map_congr_left
    intro i hi
    have hik : i < v.len := List.mem_range.mp hi
    simp only [Function.comp_apply, Nat.succ_eq_add_one]
    exact get_pushFront_succ v t h (by omega)

/-! ### Canonical runs built by `From<&[Token]>` -/

theorem fromList_eq_mk (l : List Token) (h : l.length ≤ 29) :
    TokenVec.fromList l = TokenVec.mk (64 * encodeToks l + l.length) := by
  cases hv : TokenVec.fromList l
  have := fromList_word l h
  simp_all

theorem get_fromList (l : List Token) {i : Nat} (h : l.length ≤ 29)
    (hi : i < l.length) :
    (TokenVec.fromList l).get i = l.get ⟨i, hi⟩ := by
  rw [get_eq _ (by omega), fromList_payload l h, encodeToks_digit l i hi, ofCode_code]

theorem toList_fromList (l : List Token) (h : l.length ≤ 29) :
    (TokenVec.fromList l).toList = l := by
  rw [toList_eq _ (fromList_wf l h) (by rw [fromList_len l h]; exact h),
    fromList_len l h]
  apply List.ext_getElem
  · simp
  · intro i h1 h2
    simp only [List.getElem_map, List.getElem_range]
    rw [get_fromList l h (by simpa using h2)]
    simp

theorem fromList_nil : TokenVec.fromList [] = TokenVec.new := by decide

theorem setDigit_clean {p L : Nat} (c : Nat) (hp : p < 4 ^ L) :
    setDigit p L c = p + c * 4 ^ L := by
  have hp2 : p < 4 ^ (L + 1) := by
    calc p < 4 ^ L := hp
      _ ≤ 4 ^ (L + 1) := Nat.pow_le_pow_right (by norm_num) (by omega)
  simp only [setDigit]
  rw [Nat.mod_eq_of_lt hp, Nat.div_eq_of_lt hp2]
  ring

theorem push_fromList (acc : List Token) (t : Token) (h : acc.length ≤ 28) :
    (TokenVec.fromList acc).push t = TokenVec.fromList (acc ++ [t]) := by
  rw [push_eq _ t (by rw [fromList_len acc (by omega)]; omega),
    fromList_payload acc (by omega), fromList_len acc (by omega),
    fromList_eq_mk (acc ++ [t]) (by simp; omega)]
  rw [setDigit_clean t.code (encodeToks_lt acc), encodeToks_append_one]
  simp

theorem pushFront_fromList (ts : List Token) (t : Token) (h : ts.length ≤ 28) :
    (TokenVec.fromList ts).pushFront t = TokenVec.fromList (t :: ts) := by
  rw [pushFront_eq _ t (by rw [fromList_len ts (by omega)]; omega),
    fromList_payload ts (by omega), fromList_len ts (by omega),
    fromList_eq_mk (t :: ts) (by simp; omega)]
  have hE : 4 * encodeToks ts + t.code < 2 ^ 58 := by
    have h1 : encodeToks ts < 4 ^ ts.length := encodeToks_lt ts
    have h2 : (4 : Nat) ^ ts.length ≤ 4 ^ 28 := Nat.pow_le_pow_right (by norm_num) h
    have h3 := code_lt t
    have h4 : (4 : Nat) * 4 ^ 28 = 2 ^ 58 := by norm_num
    omega
  rw [Nat.mod_eq_of_lt hE]
  simp only [encodeToks, List.length_cons]
  ring_nf

theorem pushAll_fromList :
    ∀ (l acc : List Token), acc.length + l.length ≤ 29 →
      List.foldl TokenVec.push (TokenVec.fromList acc) l = TokenVec.fromList (acc ++ l)
  | [], acc, _ => by simp
  | t :: ts, acc, h => by
    have hlen : acc.length ≤ 28 := by simp at h; omega
    rw [List.foldl_cons, push_fromList acc t hlen,
      pushAll_fromList ts (acc ++ [t]) (by simp at h ⊢; omega)]
    simp

theorem foldrPushFront_fromList :
    ∀ l : List Token, l.length ≤ 29 →
      List.foldr (fun t w => TokenVec.pushFront w t) TokenVec.new l =
        TokenVec.fromList l
  | [], _ => by rw [List.foldr_nil, fromList_nil]
  | t :: ts, h => by
    rw [List.foldr_cons, foldrPushFront_fromList ts (by simp at h; omega),
      pushFront_fromList ts t (by simp at h; omega)]

/-! ### Claim theorems: equality, round trip, front/back symmetry -/

/-- C1: the claim that `==` on `TokenVec` returns true exactly on runs with
equal length and equal tokens at every occupied index is refuted by the code:
the shift in `PartialEq` is `shift_for(len)` instead of its complement, so for
two garbage-free runs of length 14 that differ in their last token the
comparison discards the differing payload bits and wrongly returns `true`,
while iterating the two runs yields different token sequences. -/
theorem c1_eq_compares_occupied_bits_refuted :
    tokenVecEq (TokenVec.fromList (List.replicate 13 Token.S ++ [Token.T]))
        (TokenVec.fromList (List.replicate 14 Token.S)) = true ∧
      (TokenVec.fromList (List.replicate 13 Token.S ++ [Token.T])).toList ≠
        (TokenVec.fromList (List.replicate 14 Token.S)).toList := by
  constructor
  · decide
  · decide

/-- C2: for every sequence of Tokens of length at most 29, constructing a
`TokenVec` from that slice (`From<&[Token]>`) and then iterating it to
exhaustion reproduces exactly the original sequence, in order. -/
theorem c2_from_slice_iterate_roundtrip (l : List Token) (h : l.length ≤ 29) :
    (TokenVec.fromList l).toList = l := toList_fromList l h

/-- C2 witness. -/
theorem c2_from_slice_iterate_roundtrip_witness :
    ([Token.S, Token.T, Token.L] : List Token).length ≤ 29 ∧
      (TokenVec.fromList [Token.S, Token.T, Token.L]).toList =
        [Token.S, Token.T, Token.L] :=
  ⟨by decide, c2_from_slice_iterate_roundtrip [Token.S, Token.T, Token.L] (by decide)⟩

/-- C3: for every sequence of Tokens of length at most 29, pushing all
elements via `push_front` in reverse order yields a run equal by `==` to the
run built by `push` in forward order (in fact the two words coincide). -/
theorem c3_pushfront_reverse_eq_push (l : List Token) (h : l.length ≤ 29) :
    tokenVecEq (List.foldl TokenVec.pushFront TokenVec.new l.reverse)
      (List.foldl TokenVec.push TokenVec.new l) = true := by
  have h1 : List.foldl TokenVec.pushFront TokenVec.new l.reverse =
      TokenVec.fromList l := by
    rw [List.foldl_reverse]
    exact foldrPushFront_fromList l h
  have h2 : List.foldl TokenVec.push TokenVec.new l = TokenVec.fromList l := by
    have := pushAll_fromList l [] (by simpa using h)
    rw [fromList_nil] at this
    simpa using this
  rw [h1, h2]
  simp [tokenVecEq]

/-- C3 witness. -/
theorem c3_pushfront_reverse_eq_push_witness :
    ([Token.T, Token.L, Token.S] : List Token).length ≤ 29 ∧
      tokenVecEq
        (List.foldl TokenVec.pushFront TokenVec.new [Token.T, Token.L, Token.S].reverse)
        (List.foldl TokenVec.push TokenVec.new [Token.T, Token.L, Token.S]) = true :=
  ⟨by decide, c3_pushfront_reverse_eq_push [Token.T, Token.L, Token.S] (by decide)⟩

/-! ### Claim theorems: append_bits, iteration, pop contract, capacity -/

theorem appendBits_toList :
    ∀ (bs : List Bool) (v : TokenVec), v.Wf → v.len + bs.length ≤ 29 →
      (v.appendBits bs).toList = v.toList ++ bs.map bitToken ∧
        (v.appendBitsFront bs).toList = (bs.map bitToken).reverse ++ v.toList
  | [], v, hw, h => by
    simp [TokenVec.appendBits, TokenVec.appendBitsFront]
  | b :: bs, v, hw, h => by
    have hlen : v.len ≤ 28 := by simp at h; omega
    have hw1 : (v.push (bitToken b)).Wf := wf_push _ hw hlen
    have hw2 : (v.pushFront (bitToken b)).Wf := wf_pushFront v _ hlen
    have hl1 : (v.push (bitToken b)).len + bs.length ≤ 29 := by
      rw [len_push v _ hlen]; simp at h; omega
    have hl2 : (v.pushFront (bitToken b)).len + bs.length ≤ 29 := by
      rw [len_pushFront v _ hlen]; simp at h; omega
    have ih1 := (appendBits_toList bs (v.push (bitToken b)) hw1 hl1).1
    have ih2 := (appendBits_toList bs (v.pushFront (bitToken b)) hw2 hl2).2
    constructor
    · show (TokenVec.appendBits (v.push (bitToken b)) bs).toList = _
      rw [ih1, toList_push v _ hw hlen]
      simp [List.append_assoc]
    · show (TokenVec.appendBitsFront (v.pushFront (bitToken b)) bs).toList = _
      rw [ih2, toList_pushFront v _ hw hlen]
      simp [List.append_assoc]

/-- C7 counterexample: `append_bits_front` on an empty run with the bit
sequence `[0, 1]` produces the run `[T, S]` (last bit in front), not the
claimed front-to-back copy `[S, T]` of the bit sequence. -/
theorem c7_append_bits_front_order_counterexample :
    (TokenVec.appendBitsFront TokenVec.new [false, true]).toList =
        [Token.T, Token.S] ∧
      (TokenVec.appendBitsFront TokenVec.new [false, true]).toList ≠
        [Token.S, Token.T] := by
  constructor
  · decide
  · decide

/-- C7 (amended): when the bits fit, `append_bits` maps bit `0` to `S` and
bit `1` to `T` and appends the converted tokens at the back in bit order;
`append_bits_front` performs the same conversion but inserts each successive
bit at the front, so the run read front-to-back is the bit sequence reversed,
prepended to the original contents. -/
theorem c7_append_bits_amended (bs : List Bool) (v : TokenVec) (hw : v.Wf)
    (h : v.len + bs.length ≤ 29) :
    (v.appendBits bs).toList = v.toList ++ bs.map bitToken ∧
      (v.appendBitsFront bs).toList = (bs.map bitToken).reverse ++ v.toList :=
  appendBits_toList bs v hw h

/-- C7 witness. -/
theorem c7_append_bits_amended_witness :
    TokenVec.new.Wf ∧ TokenVec.new.len + [false, true].length ≤ 29 ∧
      ((TokenVec.appendBits TokenVec.new [false, true]).toList =
          TokenVec.new.toList ++ [false, true].map bitToken ∧
        (TokenVec.appendBitsFront TokenVec.new [false, true]).toList =
          ([false, true].map bitToken).reverse ++ TokenVec.new.toList) :=
  ⟨by decide, by decide, c7_append_bits_amended [false, true] TokenVec.new
    (by decide) (by decide)⟩

/-- C8: `size_hint` is exactly `(len, Some len)`; forward iteration yields the
tokens in front-to-back (`pop_front`) order, reverse iteration yields them in
back-to-front (`pop`) order; and once either drain has exhausted the run,
every further `next`/`next_back` returns `None`. -/
theorem c8_iteration (v : TokenVec) (hw : v.Wf) (hk : v.len ≤ 29) :
    v.sizeHint = (v.len, some v.len) ∧
      (drainF v.len v).1 = (List.range v.len).map v.get ∧
      (drainB v.len v).1 = ((List.range v.len).map v.get).reverse ∧
      (drainF v.len v).2.next = none ∧ (drainF v.len v).2.nextBack = none ∧
      (drainB v.len v).2.next = none ∧ (drainB v.len v).2.nextBack = none := by
  have hF := drainF_spec v.len v hw rfl hk
  have hB := drainB_spec v.len v hw rfl hk
  exact ⟨rfl, hF.1, hB.1, next_of_empty _ hF.2.1, nextBack_of_empty _ hF.2.1,
    next_of_empty _ hB.2.1, nextBack_of_empty _ hB.2.1⟩

/-- C8 witness. -/
theorem c8_iteration_witness :
    (TokenVec.fromList [Token.S, Token.T]).Wf ∧
      (TokenVec.fromList [Token.S, Token.T]).len ≤ 29 ∧
      ((TokenVec.fromList [Token.S, Token.T]).sizeHint =
          ((TokenVec.fromList [Token.S, Token.T]).len,
            some (TokenVec.fromList [Token.S, Token.T]).len) ∧
        (drainF (TokenVec.fromList [Token.S, Token.T]).len
            (TokenVec.fromList [Token.S, Token.T])).1 =
          (List.range (TokenVec.fromList [Token.S, Token.T]).len).map
            (TokenVec.fromList [Token.S, Token.T]).get ∧
        (drainB (TokenVec.fromList [Token.S, Token.T]).len
            (TokenVec.fromList [Token.S, Token.T])).1 =
          ((List.range (TokenVec.fromList [Token.S, Token.T]).len).map
            (TokenVec.fromList [Token.S, Token.T]).get).reverse ∧
        (drainF (TokenVec.fromList [Token.S, Token.T]).len
            (TokenVec.fromList [Token.S, Token.T])).2.next = none ∧
        (drainF (TokenVec.fromList [Token.S, Token.T]).len
            (TokenVec.fromList [Token.S, Token.T])).2.nextBack = none ∧
        (drainB (TokenVec.fromList [Token.S, Token.T]).len
            (TokenVec.fromList [Token.S, Token.T])).2.next = none ∧
        (drainB (TokenVec.fromList [Token.S, Token.T]).len
            (TokenVec.fromList [Token.S, Token.T])).2.nextBack = none) :=
  ⟨by decide, by decide, c8_iteration (TokenVec.fromList [Token.S, Token.T])
    (by decide) (by decide)⟩

/-- C9: `pop`/`pop_front` on an empty run are debug-checked contract
violations (the checked operations return `none`); on a non-empty run `pop`
removes and returns the back element, `pop_front` removes and returns the
front element, each decrementing the length by one and leaving the remaining
elements in place. -/
theorem c9_pop_contract (v : TokenVec) (hk : v.len ≤ 29) :
    (v.len = 0 → v.popD = none ∧ v.popFrontD = none) ∧
      (1 ≤ v.len →
        v.popD = some (v.get (v.len - 1), (v.pop).2) ∧
          (v.pop).2.len = v.len - 1 ∧
          (∀ i, i < v.len - 1 → (v.pop).2.get i = v.get i) ∧
          v.popFrontD = some (v.get 0, (v.popFront).2) ∧
          (v.popFront).2.len = v.len - 1 ∧
          (∀ i, i < v.len - 1 → (v.popFront).2.get i = v.get (i + 1))) := by
  constructor
  · intro h
    constructor
    · simp [TokenVec.popD, h]
    · simp [TokenVec.popFrontD, h]
  · intro h
    have hcond : 1 ≤ v.len ∧ v.len - 1 ≤ 29 := ⟨h, by omega⟩
    refine ⟨?_, len_pop v h, ?_, ?_, len_popFront v h, ?_⟩
    · simp only [TokenVec.popD, if_pos hcond]
      have h1 := pop_fst v h
      cases hp : v.pop with
      | mk a b =>
        rw [hp] at h1
        simp only [Option.some.injEq, Prod.mk.injEq]
        exact ⟨h1, trivial⟩
    · intro i hi
      exact get_pop v h (by omega)
    · simp only [TokenVec.popFrontD, if_pos hcond]
      have h1 := popFront_fst v
      cases hp : v.popFront with
      | mk a b =>
        rw [hp] at h1
        simp only [Option.some.injEq, Prod.mk.injEq]
        exact ⟨h1, trivial⟩
    · intro i hi
      exact get_popFront v h (by omega)

/-- C9 witness. -/
theorem c9_pop_contract_witness :
    (TokenVec.fromList [Token.S, Token.T, Token.L]).len ≤ 29 ∧
      (((TokenVec.fromList [Token.S, Token.T, Token.L]).len = 0 →
          (TokenVec.fromList [Token.S, Token.T, Token.L]).popD = none ∧
            (TokenVec.fromList [Token.S, Token.T, Token.L]).popFrontD = none) ∧
        (1 ≤ (TokenVec.fromList [Token.S, Token.T, Token.L]).len →
          (TokenVec.fromList [Token.S, Token.T, Token.L]).popD =
              some ((TokenVec.fromList [Token.S, Token.T, Token.L]).get
                  ((TokenVec.fromList [Token.S, Token.T, Token.L]).len - 1),
                ((TokenVec.fromList [Token.S, Token.T, Token.L]).pop).2) ∧
            ((TokenVec.fromList [Token.S, Token.T, Token.L]).pop).2.len =
              (TokenVec.fromList [Token.S, Token.T, Token.L]).len - 1 ∧
            (∀ i, i < (TokenVec.fromList [Token.S, Token.T, Token.L]).len - 1 →
              ((TokenVec.fromList [Token.S, Token.T, Token.L]).pop).2.get i =
                (TokenVec.fromList [Token.S, Token.T, Token.L]).get i) ∧
            (TokenVec.fromList [Token.S, Token.T, Token.L]).popFrontD =
              some ((TokenVec.fromList [Token.S, Token.T, Token.L]).get 0,
                ((TokenVec.fromList [Token.S, Token.T, Token.L]).popFront).2) ∧
            ((TokenVec.fromList [Token.S, Token.T, Token.L]).popFront).2.len =
              (TokenVec.fromList [Token.S, Token.T, Token.L]).len - 1 ∧
            (∀ i, i < (TokenVec.fromList [Token.S, Token.T, Token.L]).len - 1 →
              ((TokenVec.fromList [Token.S, Token.T, Token.L]).popFront).2.get i =
                (TokenVec.fromList [Token.S, Token.T, Token.L]).get (i + 1)))) :=
  ⟨by decide, c9_pop_contract (TokenVec.fromList [Token.S, Token.T, Token.L])
    (by decide)⟩

/-- C10: `append` with an empty slice and `concat` with an empty run run into
`extend`'s `debug_assert!(n != 0 && ...)`, so they are debug-checked contract
violations (`none` in the checked model) even when far below capacity. -/
theorem c10_empty_append_concat (v o : TokenVec) :
    v.appendD [] = none ∧ (o.len = 0 → v.concatD o = none) := by
  constructor
  · simp [TokenVec.appendD]
  · intro h
    simp [TokenVec.concatD, h]

/-- C10 witness: a one-element run has plenty of spare capacity, yet appending
an empty slice or concatenating an empty run still traps. -/
theorem c10_empty_append_concat_witness :
    TokenVec.appendD (TokenVec.fromList [Token.S]) [] = none ∧
      TokenVec.concatD (TokenVec.fromList [Token.S]) TokenVec.new = none :=
  ⟨(c10_empty_append_concat (TokenVec.fromList [Token.S]) TokenVec.new).1,
    (c10_empty_append_concat (TokenVec.fromList [Token.S]) TokenVec.new).2 (by decide)⟩

/-- C4: the claim that the safe API never produces a reported length above the
capacity 29 is refuted: `extend` ors the new length field over the old one
without clearing it (`data` keeps the old length bits), so appending 21 tokens
to a 5-element run passes the debug assertion (5 + 21 ≤ 29) yet yields a run
whose reported length is `5 ||| 26 = 31 > 29`. -/
theorem c4_append_exceeds_capacity_refuted :
    (TokenVec.appendD (TokenVec.fromList (List.replicate 5 Token.S))
        (List.replicate 21 Token.S)).map TokenVec.len = some 31 ∧ 29 < 31 := by
  constructor
  · decide
  · decide

/-! ### Bit codec (spec-modelled) -/

/-- Modelled from the spec: `bit_pack_padded` lives in `src/ws/bit_pack.rs`,
which is not part of the provided sources.  Spec §4.2: each Token maps to a
fixed 2-bit code (the token discriminants 0, 1, 2), codes are concatenated
most-significant-bit first into bytes, and the final partial byte is
right-padded with the reserved fourth 2-bit pattern `0b11`. -/
def packByte (c0 c1 c2 c3 : Nat) : Nat := c0 * 64 + c1 * 16 + c2 * 4 + c3

/-- Modelled from the spec: the reserved padding code, the fourth 2-bit
combination, which no Token uses. -/
def padCode : Nat := 3

/-- Modelled from the spec: `bit_pack_padded`, packing four 2-bit codes per
byte, most-significant first, padding the final partial byte with `padCode`. -/
def bitPackPadded : List Token → List Nat
  | [] => []
  | [t0] => [packByte t0.code padCode padCode padCode]
  | [t0, t1] => [packByte t0.code t1.code padCode padCode]
  | [t0, t1, t2] => [packByte t0.code t1.code t2.code padCode]
  | t0 :: t1 :: t2 :: t3 :: rest =>
    packByte t0.code t1.code t2.code t3.code :: bitPackPadded rest

/-- The four 2-bit codes of a byte, most-significant first. -/
def byteCodes (b : Nat) : List Nat := [b / 64 % 4, b / 16 % 4, b / 4 % 4, b % 4]

/-- Modelled from the spec: `bit_unpack_padded`, reading 2-bit groups
most-significant first and stopping at the first padding code or at end of
input, whichever comes first. -/
def bitUnpackPadded (bs : List Nat) : List Token :=
  (((bs.map byteCodes).flatten).takeWhile (fun c => c != padCode)).map Token.ofCode

theorem padCode_lt : padCode < 4 := by norm_num [padCode]

theorem byteCodes_packByte {c0 c1 c2 c3 : Nat} (h0 : c0 < 4) (h1 : c1 < 4)
    (h2 : c2 < 4) (h3 : c3 < 4) :
    byteCodes (packByte c0 c1 c2 c3) = [c0, c1, c2, c3] := by
  have e0 : (c0 * 64 + c1 * 16 + c2 * 4 + c3) / 64 % 4 = c0 := by omega
  have e1 : (c0 * 64 + c1 * 16 + c2 * 4 + c3) / 16 % 4 = c1 := by omega
  have e2 : (c0 * 64 + c1 * 16 + c2 * 4 + c3) / 4 % 4 = c2 := by omega
  have e3 : (c0 * 64 + c1 * 16 + c2 * 4 + c3) % 4 = c3 := by omega
  simp [byteCodes, packByte, e0, e1, e2, e3]

theorem code_bne_pad (t : Token) : (t.code != padCode) = true := by
  cases t <;> rfl

theorem pad_bne_pad : (padCode != padCode) = false := rfl

/-- C6: unpacking the result of packing any finite Token sequence yields the
sequence back: the three token codes never collide with the reserved padding
pattern, so `bit_unpack_padded (bit_pack_padded ts) = ts`. -/
theorem c6_unpack_pack_roundtrip (ts : List Token) :
    bitUnpackPadded (bitPackPadded ts) = ts := by
  induction ts using bitPackPadded.induct with
  | case1 =>
    simp [bitPackPadded, bitUnpackPadded]
  | case2 t0 =>
    simp only [bitPackPadded, bitUnpackPadded, List.map_cons, List.map_nil,
      List.flatten_cons, List.flatten_nil, List.append_nil,
      byteCodes_packByte (code_lt t0) padCode_lt padCode_lt padCode_lt]
    simp [List.takeWhile_cons, code_bne_pad, pad_bne_pad, ofCode_code]
  | case3 t0 t1 =>
    simp only [bitPackPadded, bitUnpackPadded, List.map_cons, List.map_nil,
      List.flatten_cons, List.flatten_nil, List.append_nil,
      byteCodes_packByte (code_lt t0) (code_lt t1) padCode_lt padCode_lt]
    simp [List.takeWhile_cons, code_bne_pad, pad_bne_pad, ofCode_code]
  | case4 t0 t1 t2 =>
    simp only [bitPackPadded, bitUnpackPadded, List.map_cons, List.map_nil,
      List.flatten_cons, List.flatten_nil, List.append_nil,
      byteCodes_packByte (code_lt t0) (code_lt t1) (code_lt t2) padCode_lt]
    simp [List.takeWhile_cons, code_bne_pad, pad_bne_pad, ofCode_code]
  | case5 t0 t1 t2 t3 rest ih =>
    simp only [bitPackPadded, bitUnpackPadded, List.map_cons, List.flatten_cons,
      byteCodes_packByte (code_lt t0) (code_lt t1) (code_lt t2) (code_lt t3)]
    rw [List.takeWhile_append_of_pos (by
      intro a ha
      simp at ha
      rcases ha with h | h | h | h <;> (subst h; exact code_bne_pad _))]
    simp only [List.map_append, List.map_cons, List.map_nil, ofCode_code]
    simp only [bitUnpackPadded] at ih
    rw [ih]
    rfl

/-! ### Lexers, prefix decoder and the tutorial program (spec-modelled) -/

/-- A decoded instruction.  Modelled from the spec: `Inst`/`RawInst` live in
`src/ws/inst.rs`, which is not part of the provided sources.  Spec §3: an
opcode tag from a closed set, where exactly Push, Label, Jz and Jmp carry a
bit-vector payload (here a `List Bool`). -/
inductive Inst where
  | Push (arg : List Bool)
  | Dup
  | Add
  | Sub
  | Printi
  | Printc
  | Drop
  | Label (arg : List Bool)
  | Jz (arg : List Bool)
  | Jmp (arg : List Bool)
  | End
deriving DecidableEq, Repr

/-- A table entry: an argument-free instruction, or a builder expecting the
terminator-delimited bit-vector argument. -/
inductive Entry where
  | plain (i : Inst)
  | witharg (f : List Bool → Inst)

/-- Modelled from the spec: the standard prefix table (`TABLE` in
`src/ws/parse.rs`, not part of the provided sources).  Spec §6: a closed,
statically defined mapping from Token-sequence prefixes to instruction tags,
with push-value, label-definition, conditional-jump and unconditional-jump
additionally expecting a terminator-delimited bit-vector argument; the
entries are pinned down by the tutorial test data in `src/ws/tests.rs`. -/
def instTable : List (List Token × Entry) :=
  [([.S, .S], .witharg Inst.Push),
   ([.S, .L, .S], .plain Inst.Dup),
   ([.S, .L, .L], .plain Inst.Drop),
   ([.T, .S, .S, .S], .plain Inst.Add),
   ([.T, .S, .S, .T], .plain Inst.Sub),
   ([.T, .L, .S, .T], .plain Inst.Printi),
   ([.T, .L, .S, .S], .plain Inst.Printc),
   ([.L, .S, .S], .witharg Inst.Label),
   ([.L, .T, .S], .witharg Inst.Jz),
   ([.L, .S, .L], .witharg Inst.Jmp),
   ([.L, .L, .L], .plain Inst.End)]

/-- Exact-match lookup of a candidate opcode sequence in the table. -/
def lookupEntry (pfx : List Token) : Option Entry :=
  (instTable.find? (fun e => e.1 == pfx)).map (fun e => e.2)

/-- Modelled from the spec (§4.4): consume Tokens one at a time, extending a
candidate opcode sequence, until it exactly matches a table entry; fail if
the source is exhausted first. -/
def findOp : List Token → List Token → Option (Entry × List Token)
  | [], _ => none
  | t :: rest, acc =>
    match lookupEntry (acc ++ [t]) with
    | some e => some (e, rest)
    | none => findOp rest (acc ++ [t])

/-- Modelled from the spec (§4.4): after an argument-carrying opcode, consume
Tokens building a bit-vector payload until the designated terminator Token
`L`; the terminator is consumed and not included.  `S` is bit 0, `T` bit 1.
End of input before the terminator is a decode failure. -/
def readArg : List Token → Option (List Bool × List Token)
  | [] => none
  | Token.L :: rest => some ([], rest)
  | Token.S :: rest =>
    match readArg rest with
    | none => none
    | some (bs, r) => some (false :: bs, r)
  | Token.T :: rest =>
    match readArg rest with
    | none => none
    | some (bs, r) => some (true :: bs, r)

/-- Modelled from the spec (§4.4): the decode loop, producing the instruction
sequence; the fuel is an upper bound on the number of instructions (each
consumes at least one Token). -/
def parseToks : Nat → List Token → Option (List Inst)
  | _, [] => some []
  | 0, _ :: _ => none
  | fuel + 1, t :: rest =>
    match findOp (t :: rest) [] with
    | none => none
    | some (Entry.plain i, rest2) =>
      match parseToks fuel rest2 with
      | none => none
      | some is => some (i :: is)
    | some (Entry.witharg f, rest2) =>
      match readArg rest2 with
      | none => none
      | some (bs, rest3) =>
        match parseToks fuel rest3 with
        | none => none
        | some is => some (f bs :: is)

/-- Decode a whole Token sequence against the standard prefix table. -/
def decodeInsts (toks : List Token) : Option (List Inst) :=
  parseToks toks.length toks

/-- Modelled from the spec: the canonical three-letter text Mapping (`STL`):
`S`, `T`, `L` name the three tokens; anything else is unmapped. -/
def charMapSTL (c : Char) : Option Token :=
  if c = 'S' then some Token.S
  else if c = 'T' then some Token.T
  else if c = 'L' then some Token.L
  else none

/-- Modelled from the spec (§4.3): the lenient text lexer silently skips
symbols absent from the Mapping. -/
def lexTextLenient (src : List Char) : List Token := src.filterMap charMapSTL

/-- Modelled from the spec: the `STL` byte Mapping, on the byte values of
`S` (83), `T` (84) and `L` (76), as used by `MappingLexer::new_bytes` in the
`byte_lex` test. -/
def byteMapSTL (b : Nat) : Option Token :=
  if b = 83 then some Token.S
  else if b = 84 then some Token.T
  else if b = 76 then some Token.L
  else none

/-- Modelled from the spec: the byte lexer over the `STL` byte Mapping
(skipping unmapped bytes, as the `byte_lex` test requires). -/
def lexBytesLenient (src : List Nat) : List Token := src.filterMap byteMapSTL

/-- `TUTORIAL_STL` from `src/ws/tests.rs`: the tutorial program in the
three-letter notation with free-form commentary. -/
def tutorialText : String :=
  "\nS S S T L                    push 1\nL S S S T S S S S T T L  label_C:\nS L S                        dup\nT L S T                      printi\nS S S T S T S L              push 10\nT L S S                      printc\nS S S T L                    push 1\nT S S S                      add\nS L S                        dup\nS S S T S T T L              push 11\nT S S T                      sub\nL T S S T S S S T S T L      jz label_E\nL S L S T S S S S T T L      jmp label_C\nL S S S T S S S T S T L  label_E:\nS L L                        drop\nL L L                        end\n"

/-- `TUTORIAL_TOKENS` from `src/ws/tests.rs`. -/
def tutorialTokens : List Token :=
  [Token.S, Token.S, Token.S, Token.T, Token.L, Token.L, Token.S, Token.S, Token.S, Token.T, Token.S, Token.S, Token.S, Token.S, Token.T, Token.T,
   Token.L, Token.S, Token.L, Token.S, Token.T, Token.L, Token.S, Token.T, Token.S, Token.S, Token.S, Token.T, Token.S, Token.T, Token.S, Token.L,
   Token.T, Token.L, Token.S, Token.S, Token.S, Token.S, Token.S, Token.T, Token.L, Token.T, Token.S, Token.S, Token.S, Token.S, Token.L, Token.S,
   Token.S, Token.S, Token.S, Token.T, Token.S, Token.T, Token.T, Token.L, Token.T, Token.S, Token.S, Token.T, Token.L, Token.T, Token.S, Token.S,
   Token.T, Token.S, Token.S, Token.S, Token.T, Token.S, Token.T, Token.L, Token.L, Token.S, Token.L, Token.S, Token.T, Token.S, Token.S, Token.S,
   Token.S, Token.T, Token.T, Token.L, Token.L, Token.S, Token.S, Token.S, Token.T, Token.S, Token.S, Token.S, Token.T, Token.S, Token.T, Token.L,
   Token.S, Token.L, Token.L, Token.L, Token.L, Token.L]

/-- `get_tutorial_insts` from `src/ws/tests.rs`: the expected 16-instruction
decode of the tutorial program (bit arguments written with `false` for the
0-bit `S` and `true` for the 1-bit `T`). -/
def tutorialInsts : List Inst :=
  [Inst.Push [false, true],
   Inst.Label [false, true, false, false, false, false, true, true],
   Inst.Dup,
   Inst.Printi,
   Inst.Push [false, true, false, true, false],
   Inst.Printc,
   Inst.Push [false, true],
   Inst.Add,
   Inst.Dup,
   Inst.Push [false, true, false, true, true],
   Inst.Sub,
   Inst.Jz [false, true, false, false, false, true, false, true],
   Inst.Jmp [false, true, false, false, false, false, true, true],
   Inst.Label [false, true, false, false, false, true, false, true],
   Inst.Drop,
   Inst.End]

/-- C5: decoding the tutorial program's Token sequence against the standard
prefix table yields exactly the 16-instruction sequence of
`get_tutorial_insts`, and the decoded instruction sequence is identical
whether the Token source is the lenient text lexer over `TUTORIAL_STL`, the
byte lexer over the same bytes, or a bit-unpacked source over the packed
binary form of the token sequence. -/
theorem c5_tutorial_decode_cross_encoding :
    lexTextLenient tutorialText.data = tutorialTokens ∧
      lexBytesLenient (tutorialText.data.map Char.toNat) = tutorialTokens ∧
      bitUnpackPadded (bitPackPadded tutorialTokens) = tutorialTokens ∧
      decodeInsts tutorialTokens = some tutorialInsts ∧
      decodeInsts (lexTextLenient tutorialText.data) = some tutorialInsts ∧
      decodeInsts (lexBytesLenient (tutorialText.data.map Char.toNat)) =
        some tutorialInsts ∧
      decodeInsts (bitUnpackPadded (bitPackPadded tutorialTokens)) =
        some tutorialInsts ∧
      tutorialInsts.length = 16 :=
  ⟨by decide, by decide, by decide, by decide, by decide, by decide, by decide,
    by decide⟩
